import Mathlib

/-!
Verification development for the MEmoX retrieval-augmented-generation core:
the code chunker (src/rag/chunker.ts), the vector store (src/rag/vectorStore.ts)
and the retrieval manager (src/rag/ragManager.ts), shallowly embedded in Lean.

Conventions of the embedding:
* JavaScript strings are Lean String values (code points instead of UTF-16
  units; all concrete inputs used below are ASCII, where the two coincide).
* JavaScript numbers used as line counters and indices are Nat (they stay
  non-negative in every reachable state); the brace balance, which can go
  negative, is Int; the token-estimate arithmetic of the retrieval manager
  (exact rational expressions such as n * 4 / 100) is modelled in Rat.
* Embedding vectors are List Real; the similarity score uses Real.sqrt and
  Lean total division (the zero-vector corner that yields NaN in JS is the
  one place where the embedding and IEEE arithmetic part ways).
* External capabilities are parameters: the tokenizer is
  tok : String -> Option Nat (none = the encoder threw), the embedding model
  is a function String -> List Real, or String -> Except String (List Real)
  where its failure matters, and the host language registry is a List String.
* Mutable object state is passed explicitly.  Where aliasing matters
  (search hands out references to the chunks stored in VectorStore.data),
  chunks are identified by their index in the store.
-/

/-- The eight values of CodeChunk.metadata.type; the source's 'class' and the
    hyphenated names become Lean-legal constructor names. -/
inductive ChunkType where
  | function
  | cls
  | block
  | markdown
  | text
  | config
  | lineBlock
  | wholeFile
deriving DecidableEq, Inhabited

/-- The serialized spelling of each chunk type, as it appears in the TS string
    literals ('class', 'line-block', 'whole-file', ...). -/
def ChunkType.toStr : ChunkType → String
  | .function => "function"
  | .cls => "class"
  | .block => "block"
  | .markdown => "markdown"
  | .text => "text"
  | .config => "config"
  | .lineBlock => "line-block"
  | .wholeFile => "whole-file"

/-- CodeChunk.metadata from chunker.ts. -/
structure ChunkMetadata where
  filename : String
  language : String
  startLine : Nat
  endLine : Nat
  type : ChunkType
deriving DecidableEq, Inhabited

/-- CodeChunk from chunker.ts. -/
structure CodeChunk where
  content : String
  metadata : ChunkMetadata
deriving DecidableEq, Inhabited

/-- ChunkEmbedding from vectorStore.ts. -/
structure ChunkEmbedding where
  chunk : CodeChunk
  embedding : List ℝ

instance : Inhabited ChunkEmbedding := ⟨⟨default, []⟩⟩

/-- The whitespace class of JavaScript regexes and String.prototype.trim
    (restricted to the code points that can occur in the sources handled
    here: ASCII whitespace plus NBSP and the BOM). -/
def jsIsWs (c : Char) : Bool :=
  c = ' ' || c = '\t' || c = '\n' || c = '\r' || c = '\x0b' || c = '\x0c' ||
  c = '\u00A0' || c = '\uFEFF'

/-- JS s.split('\n'): structural char-list recursion (String.splitOn is
    position-based and does not kernel-reduce, which the concrete witnesses
    below need). -/
def splitNlGo : List Char → List Char → List String
  | [], acc => [⟨acc.reverse⟩]
  | c :: rest, acc =>
    if c = '\n' then ⟨acc.reverse⟩ :: splitNlGo rest [] else splitNlGo rest (c :: acc)

/-- JS content.split('\n'). -/
def splitLines (s : String) : List String := splitNlGo s.data []

/-- JS String.prototype.toLowerCase, as a char map. -/
def jsToLower (s : String) : String := ⟨s.data.map Char.toLower⟩

/-- JavaScript String.prototype.trim: strip whitespace from both ends. -/
def jsTrim (s : String) : String :=
  ⟨(((s.data.dropWhile jsIsWs).reverse).dropWhile jsIsWs).reverse⟩

/-- Contiguous-sublist test on char lists (JS String.prototype.includes). -/
def charsContains : List Char → List Char → Bool
  | hay, needle =>
    match hay with
    | [] => needle.isEmpty
    | _ :: t => needle.isPrefixOf hay || charsContains t needle

/-- JS s.includes(pat). -/
def strContains (s pat : String) : Bool := charsContains s.data pat.data

/-- Number of occurrences of a char: (line.match(/{/g) || []).length. -/
def countChar (s : String) (c : Char) : Nat :=
  (s.data.filter (fun x => x = c)).length

/-- this.codeLanguages in chunker.ts. -/
def codeLanguages : List String :=
  ["typescript", "javascript", "python", "java", "c", "cpp", "csharp",
   "go", "rust", "php", "ruby", "swift", "kotlin"]

/-- this.configLanguages in chunker.ts. -/
def configLanguages : List String := ["json", "yaml", "yml", "ini", "xml"]

/-- this.markdownLanguages in chunker.ts. -/
def markdownLanguages : List String := ["markdown"]

/-- The keyword alternation of the declaration pattern. -/
def declKeywords : List String := ["function", "class", "def", "interface", "enum"]

/-- line.match(/^\s*(?:function|class|def|interface|enum)\s+/): optional
    leading whitespace, one of the keywords, then at least one whitespace
    char.  The five keywords are pairwise prefix-free, so trying them in any
    order gives the regex result. -/
def matchDeclPattern (line : String) : Bool :=
  let rest := line.data.dropWhile jsIsWs
  declKeywords.any fun kw =>
    kw.data.isPrefixOf rest &&
      (match rest.drop kw.length with
       | c :: _ => jsIsWs c
       | [] => false)

/-- A line triggers the boundary heuristic of splitBySemanticUnits when it
    contains 'function', 'def ' or ' class ' (note the mandatory spaces). -/
def isTriggerLine (line : String) : Bool :=
  strContains line "function" || strContains line "def " || strContains line " class "

/-- The language list tested at the top of the detection branch in
    splitBySemanticUnits (the same thirteen languages as codeLanguages). -/
def semanticLangs : List String :=
  ["typescript", "javascript", "python", "java", "c", "cpp", "csharp",
   "go", "rust", "php", "ruby", "swift", "kotlin"]

/-- The inFunction update of a trigger line: set when the declaration
    pattern matches and the line contains 'function' or an arrow. -/
def updInF (line : String) (inF : Bool) : Bool :=
  if matchDeclPattern line then
    (if strContains line "function" || strContains line "=>" then true else inF)
  else inF

/-- The inClass update of a trigger line: set when the declaration pattern
    matches and the line contains 'class'. -/
def updInC (line : String) (inC : Bool) : Bool :=
  if matchDeclPattern line then (if strContains line "class" then true else inC)
  else inC

/-- The brace-balance update of a trigger line. -/
def updBrace (line : String) (brace : Int) : Int :=
  brace + (countChar line '{' : Int) - (countChar line '}' : Int)

/-- The declaration handling applied to a trigger line after the optional
    prior-block flush of splitBySemanticUnits: update the inFunction/inClass
    flags (only when the declaration pattern matches) and the brace balance,
    flush a function/class chunk when the balance returns to zero with a
    flag set, and otherwise continue with the updated state.  The
    continuation k is the loop on the remaining lines. -/
def semStep (language filename line : String) (i : Nat)
    (cur : List String) (start : Nat) (inF inC : Bool) (brace : Int)
    (k : List String → Nat → Bool → Bool → Int → List CodeChunk) : List CodeChunk :=
  let inF' := updInF line inF
  let inC' := updInC line inC
  let brace' := updBrace line brace
  if brace' = 0 && (inF' || inC') then
    ⟨String.intercalate "\n" cur,
     ⟨filename, language, start, i,
      if inF' then ChunkType.function else ChunkType.cls⟩⟩ ::
      k [] (i + 1) false false 0
  else
    k cur start inF' inC' brace'

/-- Worker loop of splitBySemanticUnits.  Arguments mirror the mutable locals:
    remaining lines, current index i, total line count n, currentChunk,
    startLine, inFunction, inClass, braceCount; chunks are emitted in order. -/
def semGo (language filename : String) (n : Nat) :
    List String → Nat → List String → Nat → Bool → Bool → Int → List CodeChunk
  | [], _i, currentChunk, startLine, _inF, _inC, _brace =>
      -- Add any remaining content as a block
      if currentChunk.length > 0 then
        [⟨String.intercalate "\n" currentChunk,
          ⟨filename, language, startLine, n - 1, ChunkType.block⟩⟩]
      else []
  | line :: rest, i, currentChunk0, startLine0, inF0, inC0, brace0 =>
      let currentChunk1 := currentChunk0 ++ [line]
      if semanticLangs.contains language && isTriggerLine line then
        if currentChunk1.length > 1 then
          -- flush everything before the current line as a block, reset state
          ⟨String.intercalate "\n" (currentChunk1.take (currentChunk1.length - 1)),
           ⟨filename, language, startLine0, i - 1, ChunkType.block⟩⟩ ::
            semStep language filename line i [line] i false false 0
              (fun cur st f c b => semGo language filename n rest (i + 1) cur st f c b)
        else
          semStep language filename line i currentChunk1 startLine0 inF0 inC0 brace0
            (fun cur st f c b => semGo language filename n rest (i + 1) cur st f c b)
      else
        semGo language filename n rest (i + 1) currentChunk1 startLine0 inF0 inC0 brace0

/-- CodeChunker.splitBySemanticUnits. -/
def splitBySemanticUnits (content language filename : String) : List CodeChunk :=
  let lines := splitLines content
  (semGo language filename lines.length lines 0 [] 0 false false 0).filter
    (fun chunk => (jsTrim chunk.content).length > 0)

/-- maxTokens = 512 in chunker.ts. -/
def maxTokens : Nat := 512

/-- overlap = 50 in chunker.ts (a line count, despite the name). -/
def overlap : Nat := 50

/-- Token cost of one line: encoder.encode(line).length, with the catch
    substituting 1 when the encoder throws (tok line = none). -/
def lineTokenCount (tok : String → Option Nat) (line : String) : Nat :=
  match tok line with
  | some n => n
  | none => 1

/-- Token cost of a list of lines (the reduce that re-prices overlap lines;
    the same fallback of 1 applies per line). -/
def sumTokens (tok : String → Option Nat) (lines : List String) : Nat :=
  lines.foldl (fun s l => s + lineTokenCount tok l) 0

/-- Worker loop of splitByTokenSize.  Arguments mirror the locals: parent
    metadata, total line count n, remaining lines, current index i,
    currentChunkLines, currentTokens, currentChunkStartLine. -/
def splitTokenGo (tok : String → Option Nat) (metadata : ChunkMetadata) (n : Nat) :
    List String → Nat → List String → Nat → Nat → List CodeChunk
  | [], _i, currentChunkLines, _currentTokens, currentChunkStartLine =>
      -- Add any remaining content as the last chunk
      if currentChunkLines.length > 0 then
        [⟨String.intercalate "\n" currentChunkLines,
          { metadata with startLine := currentChunkStartLine,
                          endLine := metadata.startLine + n - 1 }⟩]
      else []
  | line :: rest, i, currentChunkLines, currentTokens, currentChunkStartLine =>
      let lineTokens := lineTokenCount tok line
      if currentTokens + lineTokens > maxTokens && currentChunkLines.length > 0 then
        -- flush, then keep the last `overlap` lines as the seed of the next chunk
        let flushed : CodeChunk :=
          ⟨String.intercalate "\n" currentChunkLines,
           { metadata with startLine := currentChunkStartLine,
                           endLine := currentChunkStartLine + currentChunkLines.length - 1 }⟩
        let overlapLines := currentChunkLines.drop (currentChunkLines.length - overlap)
        let newTokens := sumTokens tok overlapLines
        flushed :: splitTokenGo tok metadata n rest (i + 1)
          (overlapLines ++ [line]) (newTokens + lineTokens)
          (metadata.startLine + i - overlapLines.length)
      else if currentTokens + lineTokens > maxTokens && currentChunkLines.length = 0 then
        -- a single line alone exceeds maxTokens: emit it as a line-block
        (⟨line, { metadata with startLine := metadata.startLine + i,
                                endLine := metadata.startLine + i,
                                type := ChunkType.lineBlock }⟩ : CodeChunk) ::
          splitTokenGo tok metadata n rest (i + 1)
            currentChunkLines currentTokens (metadata.startLine + i + 1)
      else
        splitTokenGo tok metadata n rest (i + 1)
          (currentChunkLines ++ [line]) (currentTokens + lineTokens) currentChunkStartLine

/-- CodeChunker.splitByTokenSize before the final filter (the local `chunks`
    at the return statement). -/
def splitByTokenSizeRaw (tok : String → Option Nat) (content : String)
    (metadata : ChunkMetadata) : List CodeChunk :=
  let lines := splitLines content
  splitTokenGo tok metadata lines.length lines 0 [] 0 metadata.startLine

/-- CodeChunker.splitByTokenSize. -/
def splitByTokenSize (tok : String → Option Nat) (content : String)
    (metadata : ChunkMetadata) : List CodeChunk :=
  (splitByTokenSizeRaw tok content metadata).filter
    (fun chunk => (jsTrim chunk.content).length > 0)

/-- An instrumented image of one emitted piece of splitByTokenSize: the line
    list of the piece before joining, its line range, whether it is the
    single-oversized-line case, and whether its buffer was seeded with
    overlap lines carried over from the previous flush. -/
structure TokenPiece where
  lines : List String
  startLine : Nat
  endLine : Nat
  isLB : Bool
  seeded : Bool
deriving DecidableEq, Inhabited

/-- The chunk a piece denotes (joining the lines back with newlines). -/
def pieceToChunk (metadata : ChunkMetadata) (p : TokenPiece) : CodeChunk :=
  ⟨String.intercalate "\n" p.lines,
   { metadata with startLine := p.startLine, endLine := p.endLine,
                   type := if p.isLB then ChunkType.lineBlock else metadata.type }⟩

/-- Instrumented twin of splitTokenGo: the same recursion, recording for each
    emitted piece its line list and whether its buffer was overlap-seeded
    (the extra Bool argument carries that flag for the current buffer). -/
def splitTokenPieces (tok : String → Option Nat) (ms : Nat) (n : Nat) :
    List String → Nat → List String → Nat → Nat → Bool → List TokenPiece
  | [], _i, currentChunkLines, _currentTokens, currentChunkStartLine, seeded =>
      if currentChunkLines.length > 0 then
        [⟨currentChunkLines, currentChunkStartLine, ms + n - 1, false, seeded⟩]
      else []
  | line :: rest, i, currentChunkLines, currentTokens, currentChunkStartLine, seeded =>
      let lineTokens := lineTokenCount tok line
      if currentTokens + lineTokens > maxTokens && currentChunkLines.length > 0 then
        let overlapLines := currentChunkLines.drop (currentChunkLines.length - overlap)
        let newTokens := sumTokens tok overlapLines
        ⟨currentChunkLines, currentChunkStartLine,
         currentChunkStartLine + currentChunkLines.length - 1, false, seeded⟩ ::
          splitTokenPieces tok ms n rest (i + 1)
            (overlapLines ++ [line]) (newTokens + lineTokens)
            (ms + i - overlapLines.length) true
      else if currentTokens + lineTokens > maxTokens && currentChunkLines.length = 0 then
        ⟨[line], ms + i, ms + i, true, false⟩ ::
          splitTokenPieces tok ms n rest (i + 1)
            currentChunkLines currentTokens (ms + i + 1) seeded
      else
        splitTokenPieces tok ms n rest (i + 1)
          (currentChunkLines ++ [line]) (currentTokens + lineTokens)
          currentChunkStartLine seeded

/-- The pieces of a whole splitByTokenSize run. -/
def tokenPieces (tok : String → Option Nat) (content : String)
    (metadata : ChunkMetadata) : List TokenPiece :=
  let lines := splitLines content
  splitTokenPieces tok metadata.startLine lines.length lines 0 [] 0 metadata.startLine false

/-- The line-by-line stage of chunkFile: one chunk per line, typed markdown,
    config or text by the language lists (no filtering happens here). -/
def lineByLineChunks (lines : List String) (filename language : String) : List CodeChunk :=
  lines.enum.map fun p =>
    ⟨p.2, ⟨filename, language, p.1, p.1,
      if markdownLanguages.contains language then ChunkType.markdown
      else if configLanguages.contains language then ChunkType.config
      else ChunkType.text⟩⟩

/-- The pre-splitting chunk list of chunkFile (the local `chunks` after the
    classification if/else chain). -/
def chunkFileStage1 (recognizedLanguages : List String)
    (content language filename : String) : List CodeChunk :=
  let lines := splitLines content
  if jsToLower filename = "readme.md" then
    [⟨content, ⟨filename, language, 0, lines.length - 1, ChunkType.wholeFile⟩⟩]
  else if codeLanguages.contains language then
    splitBySemanticUnits content language filename
  else if markdownLanguages.contains language || configLanguages.contains language
      || !(recognizedLanguages.contains language) then
    lineByLineChunks lines filename language
  else
    [⟨content, ⟨filename, language, 0, lines.length - 1, ChunkType.text⟩⟩]

/-- CodeChunker.chunkFile, given the host-provided data: the tokenizer, the
    registry of recognized language ids, the file text, its language id and
    its base name. -/
def chunkFile (tok : String → Option Nat) (recognizedLanguages : List String)
    (content language filename : String) : List CodeChunk :=
  let chunks := chunkFileStage1 recognizedLanguages content language filename
  let finalChunks := chunks.flatMap fun chunk =>
    if chunk.metadata.type = ChunkType.wholeFile then [chunk]
    else splitByTokenSize tok chunk.content chunk.metadata
  finalChunks.filter (fun chunk => (jsTrim chunk.content).length > 0)

/-- Joining a one-element line list is the identity. -/
theorem intercalate_single (s x : String) : String.intercalate s [x] = x := rfl

/-- Each emitted chunk of splitTokenGo is the join of the line list of the
    corresponding instrumented piece (any seed flag produces the same run). -/
theorem splitTokenGo_eq_pieces (tok : String → Option Nat) (metadata : ChunkMetadata)
    (n : Nat) :
    ∀ (lines : List String) (i : Nat) (cur : List String) (ct cs : Nat) (seeded : Bool),
    splitTokenGo tok metadata n lines i cur ct cs =
      (splitTokenPieces tok metadata.startLine n lines i cur ct cs seeded).map
        (pieceToChunk metadata) := by
  intro lines
  induction lines with
  | nil =>
    intro i cur ct cs seeded
    simp only [splitTokenGo, splitTokenPieces]
    split
    · simp [pieceToChunk]
    · rfl
  | cons line rest ih =>
    intro i cur ct cs seeded
    simp only [splitTokenGo, splitTokenPieces]
    split_ifs with h1 h2
    · simpa [pieceToChunk] using ih (i + 1) _ _ _ true
    · simpa [pieceToChunk, intercalate_single] using
        ih (i + 1) cur ct (metadata.startLine + i + 1) seeded
    · exact ih (i + 1) _ _ _ seeded

/-- Appending one line adds its token cost. -/
theorem sumTokens_append (tok : String → Option Nat) (l : List String) (x : String) :
    sumTokens tok (l ++ [x]) = sumTokens tok l + lineTokenCount tok x := by
  simp [sumTokens, List.foldl_append]

/-- Loop invariant of splitByTokenSize: while the buffer has not been seeded
    with overlap carry-over, the running count equals the buffer's token sum
    and stays within the budget, so every piece flushed from an unseeded
    buffer fits in maxTokens. -/
theorem splitTokenPieces_budget (tok : String → Option Nat) (ms n : Nat) :
    ∀ (lines : List String) (i : Nat) (cur : List String) (ct cs : Nat) (seeded : Bool),
    (seeded = false → ct = sumTokens tok cur ∧ ct ≤ maxTokens) →
    ∀ p ∈ splitTokenPieces tok ms n lines i cur ct cs seeded,
      p.isLB = false → p.seeded = false → sumTokens tok p.lines ≤ maxTokens := by
  intro lines
  induction lines with
  | nil =>
    intro i cur ct cs seeded hinv p hp hlb hsd
    simp only [splitTokenPieces] at hp
    split at hp
    · simp only [List.mem_singleton] at hp
      subst hp
      simp only at hsd
      obtain ⟨h1, h2⟩ := hinv hsd
      simpa [← h1] using h2
    · simp at hp
  | cons line rest ih =>
    intro i cur ct cs seeded hinv p hp hlb hsd
    simp only [splitTokenPieces] at hp
    split_ifs at hp with hc1 hc2
    · rcases List.mem_cons.mp hp with hp | hp
      · subst hp
        simp only at hsd
        obtain ⟨h1, h2⟩ := hinv hsd
        simpa [← h1] using h2
      · exact ih _ _ _ _ _ (fun h => by simp at h) p hp hlb hsd
    · rcases List.mem_cons.mp hp with hp | hp
      · subst hp; simp at hlb
      · exact ih _ _ _ _ _ hinv p hp hlb hsd
    · refine ih _ _ _ _ _ ?_ p hp hlb hsd
      intro hs
      obtain ⟨h1, h2⟩ := hinv hs
      constructor
      · rw [h1, sumTokens_append]
      · simp only [Bool.and_eq_true, decide_eq_true_eq, gt_iff_lt] at hc1 hc2
        omega

/-- A tokenizer stub pricing every line at one token. -/
def tokOne : String → Option Nat := fun _ => some 1

/-- A tokenizer stub pricing every line at 300 tokens. -/
def tok300 : String → Option Nat := fun _ => some 300

/-- Parent metadata of a two-line block chunk. -/
def mdBlockEx : ChunkMetadata := ⟨"a.ts", "typescript", 0, 1, ChunkType.block⟩

/-- C3, counterexample.  Splitting the two-line chunk "a\nb" when each line
    prices at 300 tokens emits, as its second chunk, a block chunk (not a
    line-block) whose lines total 600 tokens, above maxTokens = 512: the
    overlap-seeded buffer is flushed without ever being re-checked against
    the budget. -/
theorem tokenBudget_cex :
    ((splitByTokenSize tok300 "a\nb" mdBlockEx).getD 1 default).metadata.type ≠
        ChunkType.lineBlock ∧
    sumTokens tok300
        (splitLines ((splitByTokenSize tok300 "a\nb" mdBlockEx).getD 1 default).content) =
      600 ∧
    maxTokens < 600 := by decide

/-- C3, amended: every chunk that token-size splitting flushes from a buffer
    that was not seeded with overlap lines carried over from a previous flush
    (and that is not a line-block) has token count at most maxTokens = 512;
    an overlap-seeded chunk may exceed the bound.  The first conjunct ties
    the instrumented pieces to the chunks the splitter actually returns. -/
theorem tokenBudget_amended (tok : String → Option Nat) (content : String)
    (metadata : ChunkMetadata) :
    splitByTokenSizeRaw tok content metadata =
      (tokenPieces tok content metadata).map (pieceToChunk metadata) ∧
    ∀ p ∈ tokenPieces tok content metadata, p.isLB = false → p.seeded = false →
      sumTokens tok p.lines ≤ maxTokens := by
  constructor
  · exact splitTokenGo_eq_pieces tok metadata (splitLines content).length
      (splitLines content) 0 [] 0 metadata.startLine false
  · exact splitTokenPieces_budget tok metadata.startLine (splitLines content).length
      (splitLines content) 0 [] 0 metadata.startLine false
      (fun _ => ⟨rfl, by simp [maxTokens]⟩)

/-- Witness for tokenBudget_amended: on the concrete split of "a\nb" under
    tok300, the first piece is unseeded and its token sum is within budget. -/
theorem tokenBudget_amended_witness :
    (⟨["a"], 0, 0, false, false⟩ : TokenPiece) ∈ tokenPieces tok300 "a\nb" mdBlockEx ∧
    sumTokens tok300 ["a"] ≤ maxTokens :=
  ⟨by decide,
   (tokenBudget_amended tok300 "a\nb" mdBlockEx).2 ⟨["a"], 0, 0, false, false⟩
     (by decide) rfl rfl⟩

/-- C4, counterexample.  A README.md whose content is empty: the final
    empty-after-trim filter of chunkFile also removes the whole-file chunk,
    so chunkFile returns no chunk at all rather than exactly one. -/
theorem readme_cex :
    jsToLower "README.md" = "readme.md" ∧
    chunkFile tokOne [] "" "markdown" "README.md" = [] := by decide

/-- C4, amended: for a file whose base name lower-cases to readme.md,
    chunkFile returns exactly one whole-file chunk carrying the entire
    content and spanning line 0 through the last line — never token-split,
    whatever its token count — unless the content trims to the empty string,
    in which case the final filter removes it and chunkFile returns no
    chunks. -/
theorem readme_wholeFile (tok : String → Option Nat) (recognizedLanguages : List String)
    (content language filename : String) (h : jsToLower filename = "readme.md") :
    ((jsTrim content).length > 0 →
      chunkFile tok recognizedLanguages content language filename =
        [⟨content, ⟨filename, language, 0, (splitLines content).length - 1,
          ChunkType.wholeFile⟩⟩]) ∧
    ((jsTrim content).length = 0 →
      chunkFile tok recognizedLanguages content language filename = []) := by
  unfold chunkFile chunkFileStage1
  rw [if_pos h]
  constructor
  · intro hne
    simp [List.flatMap, hne]
  · intro heq
    simp [List.flatMap, heq]

/-- Witness for readme_wholeFile at a concrete README. -/
theorem readme_wholeFile_witness :
    chunkFile tokOne [] "# Title" "markdown" "README.md" =
      [⟨"# Title", ⟨"README.md", "markdown", 0, 0, ChunkType.wholeFile⟩⟩] :=
  (readme_wholeFile tokOne [] "# Title" "markdown" "README.md" (by decide)).1 (by decide)

/-- The 20-line TypeScript file of the example scenario: one function foo
    spanning lines 3-10 (its braces balancing exactly at line 10) and one
    class Bar spanning lines 12-19 (balancing at line 19). -/
def c7lines : List String :=
  ["// intro", "// more", "let x = 1",
   "function foo() \x7b", "  a()", "  b()", "  c()", "  d()", "  e()", "  f()", "\x7d",
   "",
   "class Bar \x7b", "  m()", "  n()", "  o()", "  p()", "  q()", "  r()", "\x7d"]

/-- The file content of the example scenario. -/
def c7content : String := String.intercalate "\n" c7lines

/-- C7.  On the example file, semantic splitting returns two chunks, both of
    type block — a block for lines 0-2 and a block for lines 3-19 — instead
    of the expected block 0-2 / function 3-10 / class 12-19: closing braces
    sit on lines without 'function', 'def ' or ' class ', so the brace
    balance is never decremented and no function or class chunk is flushed,
    and the line "class Bar {" does not even trigger a boundary because it
    lacks the leading space of ' class '. -/
theorem semantic_example_divergence :
    splitBySemanticUnits c7content "typescript" "example.ts" =
      [⟨String.intercalate "\n" (c7lines.take 3),
        ⟨"example.ts", "typescript", 0, 2, ChunkType.block⟩⟩,
       ⟨String.intercalate "\n" (c7lines.drop 3),
        ⟨"example.ts", "typescript", 3, 19, ChunkType.block⟩⟩] := by decide

/-- Overlap relation between consecutive pieces of one splitByTokenSize run:
    when neither is a line-block, the leading min(overlap, |p|) lines of the
    second piece are exactly the trailing overlap lines of the first. -/
def OverlapRel (p q : TokenPiece) : Prop :=
  p.isLB = false → q.isLB = false →
    q.lines.take (min overlap p.lines.length) =
      p.lines.drop (p.lines.length - overlap)

/-- Consecutive pieces of the splitter loop satisfy the overlap relation, and
    the head piece extends the current buffer whenever that buffer is
    non-empty (and is then not a line-block). -/
theorem splitTokenPieces_chain (tok : String → Option Nat) (ms n : Nat) :
    ∀ (lines : List String) (i : Nat) (cur : List String) (ct cs : Nat) (seeded : Bool),
    List.Chain' OverlapRel (splitTokenPieces tok ms n lines i cur ct cs seeded) ∧
    (∀ p ∈ (splitTokenPieces tok ms n lines i cur ct cs seeded).head?,
       cur ≠ [] → p.isLB = false ∧ cur <+: p.lines) := by
  intro lines
  induction lines with
  | nil =>
    intro i cur ct cs seeded
    simp only [splitTokenPieces]
    split
    · exact ⟨List.chain'_singleton _, by intro p hp _; simp at hp; subst hp; simp⟩
    · exact ⟨List.chain'_nil, by intro p hp; simp at hp⟩
  | cons line rest ih =>
    intro i cur ct cs seeded
    simp only [splitTokenPieces]
    split_ifs with hc1 hc2
    · -- flush with overlap seeding
      simp only [Bool.and_eq_true, decide_eq_true_eq] at hc1
      have hcur : cur ≠ [] := by
        intro h; rw [h] at hc1; simp at hc1
      obtain ⟨ihc, ihh⟩ := ih (i + 1) (cur.drop (cur.length - overlap) ++ [line])
        (sumTokens tok (cur.drop (cur.length - overlap)) + lineTokenCount tok line)
        (ms + i - (cur.drop (cur.length - overlap)).length) true
      refine ⟨List.chain'_cons'.mpr ⟨?_, ihc⟩, ?_⟩
      · intro y hy
        obtain ⟨hylb, hypre⟩ := ihh y hy (by simp)
        intro _ _
        have hov : cur.drop (cur.length - overlap) <+: y.lines :=
          (List.prefix_append _ _).trans hypre
        have hlen : (cur.drop (cur.length - overlap)).length = min overlap cur.length := by
          rw [List.length_drop]; omega
        rw [List.prefix_iff_eq_take.mp hov, hlen]
      · intro p hp _
        simp only [List.head?_cons, Option.mem_some_iff] at hp
        subst hp
        exact ⟨rfl, List.prefix_refl _⟩
    · -- line-block: the buffer is empty and stays empty
      simp only [Bool.and_eq_true, decide_eq_true_eq] at hc2
      have hcur : cur = [] := List.length_eq_zero.mp hc2.2
      obtain ⟨ihc, _⟩ := ih (i + 1) cur ct (ms + i + 1) seeded
      refine ⟨List.chain'_cons'.mpr ⟨?_, ihc⟩, ?_⟩
      · intro y _
        intro hlb
        simp at hlb
      · intro p hp hne
        exact absurd hcur hne
    · -- plain accumulation
      obtain ⟨ihc, ihh⟩ := ih (i + 1) (cur ++ [line]) (ct + lineTokenCount tok line) cs seeded
      refine ⟨ihc, ?_⟩
      intro p hp _
      obtain ⟨hlb, hpre⟩ := ihh p hp (by simp)
      exact ⟨hlb, (List.prefix_append _ _).trans hpre⟩

/-- A tokenizer stub pricing every line at 10 tokens. -/
def tok10 : String → Option Nat := fun _ => some 10

/-- 53 lines: an "x" line, one single-space line, fifty double-space lines
    and a final "y" line.  Under tok10 the splitter flushes after every 51
    accumulated lines, producing a whitespace-only middle piece. -/
def c8lines : List String := ["x", " "] ++ List.replicate 50 "  " ++ ["y"]

/-- The joined content of the overlap counterexample. -/
def c8content : String := String.intercalate "\n" c8lines

/-- Parent metadata of the overlap counterexample. -/
def mdC8 : ChunkMetadata := ⟨"notes.md", "markdown", 0, 52, ChunkType.text⟩

/-- C8, counterexample.  The whitespace-only middle piece of this run is
    removed by the empty-after-trim filter, so the two chunks that
    splitByTokenSize returns are consecutive in its output without being
    consecutive flushes, and the leading 50 lines of the second (fifty
    double-space lines) differ from the trailing 50 lines of the first
    (one single-space line followed by forty-nine double-space lines). -/
theorem overlap_cex :
    (splitByTokenSize tok10 c8content mdC8).length = 2 ∧
    ((splitByTokenSize tok10 c8content mdC8).getD 0 default).metadata.type ≠
        ChunkType.lineBlock ∧
    ((splitByTokenSize tok10 c8content mdC8).getD 1 default).metadata.type ≠
        ChunkType.lineBlock ∧
    ¬ ((splitLines ((splitByTokenSize tok10 c8content mdC8).getD 1 default).content).take
         (min overlap
           (splitLines ((splitByTokenSize tok10 c8content mdC8).getD 0 default).content).length) =
       (splitLines ((splitByTokenSize tok10 c8content mdC8).getD 0 default).content).drop
         ((splitLines ((splitByTokenSize tok10 c8content mdC8).getD 0 default).content).length -
           overlap)) := by
  set_option maxRecDepth 100000 in decide

/-- C8, amended: the overlap property holds between consecutive *flushed*
    pieces (the splitter's output before the empty-after-trim filter): for
    any two consecutive pieces with neither a line-block, the leading
    min(overlap, |piece i|) lines of piece i+1 equal the trailing overlap
    lines of piece i.  The first conjunct ties the pieces to the chunks of
    splitByTokenSizeRaw. -/
theorem overlap_amended (tok : String → Option Nat) (content : String)
    (metadata : ChunkMetadata) (i : Nat)
    (h1 : i + 1 < (tokenPieces tok content metadata).length)
    (h2 : ((tokenPieces tok content metadata).getD i default).isLB = false)
    (h3 : ((tokenPieces tok content metadata).getD (i + 1) default).isLB = false) :
    splitByTokenSizeRaw tok content metadata =
      (tokenPieces tok content metadata).map (pieceToChunk metadata) ∧
    ((tokenPieces tok content metadata).getD (i + 1) default).lines.take
        (min overlap ((tokenPieces tok content metadata).getD i default).lines.length) =
      ((tokenPieces tok content metadata).getD i default).lines.drop
        (((tokenPieces tok content metadata).getD i default).lines.length - overlap) := by
  constructor
  · exact splitTokenGo_eq_pieces tok metadata (splitLines content).length
      (splitLines content) 0 [] 0 metadata.startLine false
  · have hchain := (splitTokenPieces_chain tok metadata.startLine
      (splitLines content).length (splitLines content) 0 [] 0 metadata.startLine false).1
    have hi : i < (tokenPieces tok content metadata).length - 1 := by omega
    have hrel := List.chain'_iff_get.mp hchain i hi
    have e1 : (tokenPieces tok content metadata).getD i default =
        (tokenPieces tok content metadata).get ⟨i, by omega⟩ := by
      rw [List.getD_eq_getElem _ _ (by omega)]; rfl
    have e2 : (tokenPieces tok content metadata).getD (i + 1) default =
        (tokenPieces tok content metadata).get ⟨i + 1, by omega⟩ := by
      rw [List.getD_eq_getElem _ _ (by omega)]; rfl
    rw [e1] at h2
    rw [e2] at h3
    rw [e1, e2]
    exact hrel h2 h3

/-- Witness for overlap_amended: on the concrete split of "a\nb" under
    tok300 the two flushed pieces are regular and the second one's leading
    line repeats the first one's trailing line. -/
theorem overlap_amended_witness :
    ((tokenPieces tok300 "a\nb" mdBlockEx).getD 1 default).lines.take
        (min overlap ((tokenPieces tok300 "a\nb" mdBlockEx).getD 0 default).lines.length) =
      ((tokenPieces tok300 "a\nb" mdBlockEx).getD 0 default).lines.drop
        (((tokenPieces tok300 "a\nb" mdBlockEx).getD 0 default).lines.length - overlap) :=
  (overlap_amended tok300 "a\nb" mdBlockEx 0 (by decide) (by decide) (by decide)).2

/-- Every piece of the splitter loop has startLine at most endLine, under the
    loop invariants: the index accounts for the remaining lines, and the
    buffer start stays behind the current index (strictly, when the buffer
    is non-empty). -/
theorem splitTokenPieces_lineOrder (tok : String → Option Nat) (ms n : Nat) :
    ∀ (lines : List String) (i : Nat) (cur : List String) (ct cs : Nat) (seeded : Bool),
    i + lines.length = n →
    (cur = [] → cs ≤ ms + i) →
    (cur ≠ [] → cs + 1 ≤ ms + i) →
    ∀ p ∈ splitTokenPieces tok ms n lines i cur ct cs seeded,
      p.startLine ≤ p.endLine := by
  intro lines
  induction lines with
  | nil =>
    intro i cur ct cs seeded hn he hne p hp
    simp only [splitTokenPieces] at hp
    split at hp
    · simp only [List.mem_singleton] at hp
      subst hp
      have hcur : cur ≠ [] := by
        intro h
        simp_all
      have := hne hcur
      simp only [List.length_nil] at hn
      simp only
      omega
    · simp at hp
  | cons line rest ih =>
    intro i cur ct cs seeded hn he hne p hp
    simp only [splitTokenPieces] at hp
    split_ifs at hp with hc1 hc2
    · simp only [Bool.and_eq_true, decide_eq_true_eq] at hc1
      rcases List.mem_cons.mp hp with hp | hp
      · subst hp
        simp only
        omega
      · refine ih (i + 1) _ _ _ true (by simp at hn ⊢; omega) ?_ ?_ p hp
        · intro h; simp at h
        · intro _
          have : (cur.drop (cur.length - overlap)).length ≤ cur.length := by
            rw [List.length_drop]; omega
          have hcur : cur ≠ [] := by
            intro h; rw [h] at hc1; simp at hc1
          have := hne hcur
          omega
    · simp only [Bool.and_eq_true, decide_eq_true_eq] at hc2
      have hcur : cur = [] := List.length_eq_zero.mp hc2.2
      rcases List.mem_cons.mp hp with hp | hp
      · subst hp; simp
      · refine ih (i + 1) cur ct _ seeded (by simp at hn ⊢; omega) ?_ ?_ p hp
        · intro _; omega
        · intro h; exact absurd hcur h
    · refine ih (i + 1) (cur ++ [line]) _ cs seeded (by simp at hn ⊢; omega) ?_ ?_ p hp
      · intro h; simp at h
      · intro _
        by_cases hcur : cur = []
        · have := he hcur; omega
        · have := hne hcur; omega

/-- The chunks semStep emits or forwards keep startLine at most endLine,
    given the buffer invariant and the same property for the continuation on
    the two states semStep can pass it. -/
theorem semStep_lineOrder (language filename line : String) (i : Nat)
    (cur : List String) (start : Nat) (inF inC : Bool) (brace : Int)
    (k : List String → Nat → Bool → Bool → Int → List CodeChunk)
    (hstart : start ≤ i)
    (hk : ∀ (cur' : List String) (st' : Nat) (f c : Bool) (b : Int),
      (cur' = cur ∧ st' = start) ∨ (cur' = [] ∧ st' = i + 1) →
      ∀ ch ∈ k cur' st' f c b, ch.metadata.startLine ≤ ch.metadata.endLine) :
    ∀ ch ∈ semStep language filename line i cur start inF inC brace k,
      ch.metadata.startLine ≤ ch.metadata.endLine := by
  intro ch hch
  simp only [semStep] at hch
  split at hch
  · rcases List.mem_cons.mp hch with hch | hch
    · subst hch; simpa using hstart
    · exact hk [] (i + 1) false false 0 (Or.inr ⟨rfl, rfl⟩) ch hch
  · exact hk cur start _ _ _ (Or.inl ⟨rfl, rfl⟩) ch hch

/-- Every chunk emitted by the semantic splitting loop has startLine at most
    endLine, under the loop invariants (the index accounts for the remaining
    lines; the buffer holds exactly the lines from startLine up to the
    current index). -/
theorem semGo_lineOrder (language filename : String) (n : Nat) :
    ∀ (lines : List String) (i : Nat) (cur : List String) (start : Nat)
      (inF inC : Bool) (brace : Int),
    i + lines.length = n →
    start + cur.length = i →
    ∀ c ∈ semGo language filename n lines i cur start inF inC brace,
      c.metadata.startLine ≤ c.metadata.endLine := by
  intro lines
  induction lines with
  | nil =>
    intro i cur start inF inC brace hn hs c hc
    simp only [semGo] at hc
    split at hc
    · rename_i hlen
      simp only [List.mem_singleton] at hc
      subst hc
      simp only [List.length_nil] at hn
      dsimp only
      omega
    · simp at hc
  | cons line rest ih =>
    intro i cur start inF inC brace hn hs c hc
    simp only [List.length_cons] at hn
    simp only [semGo] at hc
    split_ifs at hc with htrig hlen
    · rcases List.mem_cons.mp hc with hc | hc
      · subst hc
        simp only [List.length_append, List.length_singleton] at hlen
        dsimp only
        omega
      · refine semStep_lineOrder _ _ _ _ _ _ _ _ _ _ (le_refl i) ?_ c hc
        intro cur' st' f cb b hst ch hch
        rcases hst with ⟨h1, h2⟩ | ⟨h1, h2⟩
        · rw [h1, h2] at hch
          exact ih (i + 1) [line] i f cb b (by omega) (by simp) ch hch
        · rw [h1, h2] at hch
          exact ih (i + 1) [] (i + 1) f cb b (by omega) (by simp) ch hch
    · refine semStep_lineOrder _ _ _ _ _ _ _ _ _ _ (by omega) ?_ c hc
      intro cur' st' f cb b hst ch hch
      rcases hst with ⟨h1, h2⟩ | ⟨h1, h2⟩
      · rw [h1, h2] at hch
        exact ih (i + 1) (cur ++ [line]) start f cb b (by omega)
          (by simp only [List.length_append, List.length_singleton]; omega) ch hch
      · rw [h1, h2] at hch
        exact ih (i + 1) [] (i + 1) f cb b (by omega) (by simp) ch hch
    · exact ih (i + 1) (cur ++ [line]) start inF inC brace (by omega)
        (by simp only [List.length_append, List.length_singleton]; omega) c hc

/-- Both C9 invariants hold for the output of splitBySemanticUnits: non-blank
    content comes from this stage's own filter, and the line order from the
    loop invariant of semGo. -/
theorem splitBySemanticUnits_inv (content language filename : String) :
    ∀ c ∈ splitBySemanticUnits content language filename,
      0 < (jsTrim c.content).length ∧
      c.metadata.startLine ≤ c.metadata.endLine := by
  intro c hc
  simp only [splitBySemanticUnits, List.mem_filter] at hc
  obtain ⟨hmem, htrim⟩ := hc
  refine ⟨by simpa using htrim, ?_⟩
  exact semGo_lineOrder language filename (splitLines content).length
    (splitLines content) 0 [] 0 false false 0 (by simp) rfl c hmem

/-- Line order for the unfiltered output of splitByTokenSize. -/
theorem splitByTokenSizeRaw_lineOrder (tok : String → Option Nat) (content : String)
    (metadata : ChunkMetadata) :
    ∀ c ∈ splitByTokenSizeRaw tok content metadata,
      c.metadata.startLine ≤ c.metadata.endLine := by
  intro c hc
  simp only [splitByTokenSizeRaw] at hc
  rw [splitTokenGo_eq_pieces tok metadata (splitLines content).length
    (splitLines content) 0 [] 0 metadata.startLine false] at hc
  obtain ⟨p, hp, rfl⟩ := List.mem_map.mp hc
  have := splitTokenPieces_lineOrder tok metadata.startLine (splitLines content).length
    (splitLines content) 0 [] 0 metadata.startLine false (by simp)
    (fun _ => by omega) (fun h => absurd rfl h) p hp
  simpa [pieceToChunk] using this

/-- Both C9 invariants hold for the output of splitByTokenSize. -/
theorem splitByTokenSize_inv (tok : String → Option Nat) (content : String)
    (metadata : ChunkMetadata) :
    ∀ c ∈ splitByTokenSize tok content metadata,
      0 < (jsTrim c.content).length ∧
      c.metadata.startLine ≤ c.metadata.endLine := by
  intro c hc
  simp only [splitByTokenSize, List.mem_filter] at hc
  obtain ⟨hmem, htrim⟩ := hc
  exact ⟨by simpa using htrim, splitByTokenSizeRaw_lineOrder tok content metadata c hmem⟩

/-- Line order for every chunk of the pre-splitting stage of chunkFile. -/
theorem chunkFileStage1_lineOrder (recognizedLanguages : List String)
    (content language filename : String) :
    ∀ c ∈ chunkFileStage1 recognizedLanguages content language filename,
      c.metadata.startLine ≤ c.metadata.endLine := by
  intro c hc
  simp only [chunkFileStage1] at hc
  split_ifs at hc with h1 h2 h3
  · simp only [List.mem_singleton] at hc
    subst hc
    simp
  · exact (splitBySemanticUnits_inv content language filename c hc).2
  · simp only [lineByLineChunks, List.mem_map] at hc
    obtain ⟨p, _, rfl⟩ := hc
    simp
  · simp only [List.mem_singleton] at hc
    subst hc
    simp

/-- Both C9 invariants hold for every chunk chunkFile returns. -/
theorem chunkFile_inv (tok : String → Option Nat) (recognizedLanguages : List String)
    (content language filename : String) :
    ∀ c ∈ chunkFile tok recognizedLanguages content language filename,
      0 < (jsTrim c.content).length ∧
      c.metadata.startLine ≤ c.metadata.endLine := by
  intro c hc
  simp only [chunkFile, List.mem_filter] at hc
  obtain ⟨hmem, htrim⟩ := hc
  refine ⟨by simpa using htrim, ?_⟩
  simp only [List.mem_flatMap] at hmem
  obtain ⟨parent, hpar, hc2⟩ := hmem
  by_cases hty : parent.metadata.type = ChunkType.wholeFile
  · rw [if_pos hty] at hc2
    simp only [List.mem_singleton] at hc2
    subst hc2
    exact chunkFileStage1_lineOrder recognizedLanguages content language filename c hpar
  · rw [if_neg hty] at hc2
    exact (splitByTokenSize_inv tok parent.content parent.metadata c hc2).2

/-- C9, counterexample.  The claim also asserts the invariants at the
    boundary after line-by-line splitting, but that stage has no filter: for
    the markdown file "a\n\nb" the middle chunk produced there has empty
    content, so the trimmed-non-empty invariant fails at that boundary (the
    empty chunk is only dropped later, by the token-size stage's filter). -/
theorem chunk_invariants_cex :
    ((chunkFileStage1 [] "a\n\nb" "markdown" "f.md").getD 1 default).content = "" ∧
    (jsTrim ((chunkFileStage1 [] "a\n\nb" "markdown" "f.md").getD 1 default).content).length
      = 0 ∧
    (chunkFileStage1 [] "a\n\nb" "markdown" "f.md").length = 3 := by decide

/-- C9, amended: every chunk returned by chunkFile has trimmed-non-empty
    content and startLine at most endLine, and the same two invariants hold
    after semantic splitting and after token-size splitting (each of those
    stages ends in a filter); the line-by-line stage, however, may emit
    empty-content chunks, which are removed only by the token-size stage. -/
theorem chunk_invariants_amended (tok : String → Option Nat)
    (recognizedLanguages : List String) (content language filename : String)
    (metadata : ChunkMetadata) :
    (∀ c ∈ chunkFile tok recognizedLanguages content language filename,
       0 < (jsTrim c.content).length ∧
       c.metadata.startLine ≤ c.metadata.endLine) ∧
    (∀ c ∈ splitBySemanticUnits content language filename,
       0 < (jsTrim c.content).length ∧
       c.metadata.startLine ≤ c.metadata.endLine) ∧
    (∀ c ∈ splitByTokenSize tok content metadata,
       0 < (jsTrim c.content).length ∧
       c.metadata.startLine ≤ c.metadata.endLine) :=
  ⟨chunkFile_inv tok recognizedLanguages content language filename,
   splitBySemanticUnits_inv content language filename,
   splitByTokenSize_inv tok content metadata⟩

/-- Witness for chunk_invariants_amended on the markdown file "a\n\nb". -/
theorem chunk_invariants_witness :
    0 < (jsTrim ((chunkFile tokOne [] "a\n\nb" "markdown" "f.md").getD 0 default).content).length ∧
    ((chunkFile tokOne [] "a\n\nb" "markdown" "f.md").getD 0 default).metadata.startLine ≤
      ((chunkFile tokOne [] "a\n\nb" "markdown" "f.md").getD 0 default).metadata.endLine :=
  (chunk_invariants_amended tokOne [] "a\n\nb" "markdown" "f.md" mdBlockEx).1
    ((chunkFile tokOne [] "a\n\nb" "markdown" "f.md").getD 0 default) (by decide)

/-- The accumulator pass of cosineSimilarity over the indices of a: dot,
    normA, normB.  (An out-of-range b[i] reads as 0 here; the stores the
    code builds share one embedding dimension, where the two agree.) -/
def cosineLoop (a b : List ℝ) : ℝ × ℝ × ℝ :=
  (List.range a.length).foldl
    (fun acc i =>
      (acc.1 + a.getD i 0 * b.getD i 0,
       acc.2.1 + a.getD i 0 * a.getD i 0,
       acc.2.2 + b.getD i 0 * b.getD i 0))
    (0, 0, 0)

/-- cosineSimilarity from vectorStore.ts: dot / (sqrt(normA) * sqrt(normB)).
    Lean's total division returns 0 where IEEE arithmetic would produce NaN
    (a zero vector). -/
noncomputable def cosineSimilarity (a b : List ℝ) : ℝ :=
  (cosineLoop a b).1 / (Real.sqrt (cosineLoop a b).2.1 * Real.sqrt (cosineLoop a b).2.2)

/-- The comparator of VectorStore.search, (a, b) => b.score - a.score, as the
    Boolean ordering it induces on scored items: x may precede y exactly when
    y's score is at most x's (descending, stable for equal scores — JS sort
    is stable, as is mergeSort). -/
noncomputable def scoreLe {α : Type} (x y : α × ℝ) : Bool := decide (y.2 ≤ x.2)

/-- The scored-and-sorted array of VectorStore.search. -/
noncomputable def searchScored (store : List ChunkEmbedding) (qe : List ℝ) :
    List (CodeChunk × ℝ) :=
  (store.map fun item => (item.chunk, cosineSimilarity qe item.embedding)).mergeSort scoreLe

/-- VectorStore.search: embed the query, score every stored record against
    the query embedding, sort descending by score, return the chunks of the
    top k records. -/
noncomputable def search (embed : String → List ℝ) (store : List ChunkEmbedding)
    (query : String) (k : Nat) : List CodeChunk :=
  ((searchScored store (embed query)).take k).map Prod.fst

/-- The comparator is transitive. -/
theorem scoreLe_trans {α : Type} (a b c : α × ℝ) :
    scoreLe a b = true → scoreLe b c = true → scoreLe a c = true := by
  simp only [scoreLe, decide_eq_true_eq]
  exact fun h1 h2 => le_trans h2 h1

/-- The comparator is total. -/
theorem scoreLe_total {α : Type} (a b : α × ℝ) :
    (scoreLe a b || scoreLe b a) = true := by
  simp only [scoreLe, Bool.or_eq_true, decide_eq_true_eq]
  exact le_total b.2 a.2

/-- C1.  For every store, embedding capability, query and k: search returns
    the chunk components of the first k entries of one sorted scored list;
    that list is a permutation of the stored records, each paired with the
    cosine similarity of the query embedding and its embedding; its scores
    are non-increasing; and the result holds min(k, store size) chunks —
    fewer than k exactly when the store holds fewer than k records. -/
theorem search_topk (embed : String → List ℝ) (store : List ChunkEmbedding)
    (query : String) (k : Nat) :
    search embed store query k =
      ((searchScored store (embed query)).take k).map Prod.fst ∧
    (searchScored store (embed query)).Perm
      (store.map fun item => (item.chunk, cosineSimilarity (embed query) item.embedding)) ∧
    ((searchScored store (embed query)).map Prod.snd).Sorted (· ≥ ·) ∧
    (search embed store query k).length = min k store.length ∧
    ((search embed store query k).length < k ↔ store.length < k) := by
  have hperm : (searchScored store (embed query)).Perm
      (store.map fun item => (item.chunk, cosineSimilarity (embed query) item.embedding)) :=
    List.mergeSort_perm _ _
  have hlen : (searchScored store (embed query)).length = store.length := by
    rw [hperm.length_eq, List.length_map]
  have hsorted : ((searchScored store (embed query)).map Prod.snd).Sorted (· ≥ ·) := by
    have hp := @List.sorted_mergeSort (CodeChunk × ℝ) scoreLe
      scoreLe_trans scoreLe_total
      (store.map fun item => (item.chunk, cosineSimilarity (embed query) item.embedding))
    rw [List.Sorted, List.pairwise_map]
    refine hp.imp ?_
    intro a b h
    simpa [scoreLe] using h
  have hlen2 : (search embed store query k).length = min k store.length := by
    simp [search, List.length_take, hlen]
  refine ⟨rfl, hperm, hsorted, hlen2, ?_⟩
  rw [hlen2]
  omega

/-- C10.  Search results for a smaller k are the prefix of the results for a
    larger one: one fixed ranking is computed from the store and the query,
    and k only truncates it. -/
theorem search_prefix_mono (embed : String → List ℝ) (store : List ChunkEmbedding)
    (query : String) (k k' : Nat) (h : k ≤ k') :
    search embed store query k = (search embed store query k').take k := by
  simp only [search, ← List.map_take, List.take_take]
  rw [min_eq_left h]

/-- A block chunk reused across the concrete store examples. -/
def chunkA : CodeChunk := ⟨"let a = 1", ⟨"a.ts", "typescript", 0, 2, ChunkType.block⟩⟩

/-- A second chunk of the same file, three lines below chunkA. -/
def chunkB : CodeChunk := ⟨"more", ⟨"a.ts", "typescript", 3, 9, ChunkType.block⟩⟩

/-- A concrete two-record store (the empty embeddings keep it computable;
    no theorem below inspects the scores it produces). -/
def storeAB : List ChunkEmbedding := [⟨chunkA, []⟩, ⟨chunkB, []⟩]

/-- A total embedding capability. -/
def embedOne : String → List ℝ := fun _ => []

/-- Witness for search_prefix_mono at k = 1, k' = 2 on a concrete store. -/
theorem search_prefix_mono_witness :
    search embedOne storeAB "query" 1 = (search embedOne storeAB "query" 2).take 1 :=
  search_prefix_mono embedOne storeAB "query" 1 2 (by decide)

/-- The mutable state of one VectorStore: the in-memory data array and the
    records serialized at dbPath (the disk image). -/
structure VSState where
  data : List ChunkEmbedding
  disk : List ChunkEmbedding

/-- The per-chunk loop of addChunks: embed each chunk in order and push the
    pair onto data; a rejected embedding propagates out of the loop, leaving
    the pushes already made in memory. -/
def addChunksLoop (embed : String → Except String (List ℝ)) :
    List CodeChunk → List ChunkEmbedding →
    Except (String × List ChunkEmbedding) (List ChunkEmbedding)
  | [], data => .ok data
  | chunk :: rest, data =>
    match embed chunk.content with
    | .error e => .error (e, data)
    | .ok embedding => addChunksLoop embed rest (data ++ [⟨chunk, embedding⟩])

/-- VectorStore.addChunks: run the loop over the batch; save() — the full
    rewrite of the file — happens only after the whole batch embedded.  The
    Option String is the propagated rejection, if any. -/
def addChunks (embed : String → Except String (List ℝ)) (chunks : List CodeChunk)
    (st : VSState) : VSState × Option String :=
  match addChunksLoop embed chunks st.data with
  | .error (e, d) => (⟨d, st.disk⟩, some e)
  | .ok d => (⟨d, d⟩, none)

/-- If any chunk of the batch fails to embed, the loop rejects (the first
    failing chunk aborts it). -/
theorem addChunksLoop_err (embed : String → Except String (List ℝ)) :
    ∀ (chunks : List CodeChunk) (data : List ChunkEmbedding),
    (∃ c ∈ chunks, ∃ e, embed c.content = Except.error e) →
    ∃ e d, addChunksLoop embed chunks data = .error (e, d) := by
  intro chunks
  induction chunks with
  | nil => intro data h; simp at h
  | cons chunk rest ih =>
    intro data h
    simp only [addChunksLoop]
    cases hemb : embed chunk.content with
    | error e => exact ⟨e, data, rfl⟩
    | ok embedding =>
      rcases h with ⟨c, hc, e, he⟩
      rcases List.mem_cons.mp hc with hc | hc
      · subst hc; rw [hemb] at he; cases he
      · exact ih _ ⟨c, hc, e, he⟩

/-- C6.  If the embedding capability rejects on any chunk of the batch,
    addChunks reports the failure to the caller and the persisted file is
    untouched: save() runs only after the loop, so no embedding computed
    earlier in the batch reaches disk. -/
theorem addChunks_atomic (embed : String → Except String (List ℝ))
    (chunks : List CodeChunk) (st : VSState)
    (h : ∃ c ∈ chunks, ∃ e, embed c.content = Except.error e) :
    (∃ e, (addChunks embed chunks st).2 = some e) ∧
    (addChunks embed chunks st).1.disk = st.disk := by
  obtain ⟨e, d, hrun⟩ := addChunksLoop_err embed chunks st.data h
  simp [addChunks, hrun]

/-- An embedding capability that always rejects (model load failure). -/
def embedFail : String → Except String (List ℝ) := fun _ => .error "model load failure"

/-- Witness for addChunks_atomic: one failing chunk, empty prior state. -/
theorem addChunks_atomic_witness :
    (∃ e, (addChunks embedFail [chunkA] ⟨[], []⟩).2 = some e) ∧
    (addChunks embedFail [chunkA] ⟨[], []⟩).1.disk = ([] : List ChunkEmbedding) :=
  addChunks_atomic embedFail [chunkA] ⟨[], []⟩
    ⟨chunkA, List.mem_singleton.mpr rfl, "model load failure", rfl⟩

/-- The chunk a store index refers to.  VectorStore.search returns the very
    chunk objects held in this.data; the retrieval-manager model keeps the
    index as the object reference, so that writes through those references
    land in the store. -/
def chunkAt (store : List ChunkEmbedding) (i : Nat) : CodeChunk :=
  (store.getD i default).chunk

/-- The scored store indices of a search (same scores as searchScored). -/
noncomputable def scoredIdx (store : List ChunkEmbedding) (qe : List ℝ) : List (Nat × ℝ) :=
  (List.range store.length).map fun i =>
    (i, cosineSimilarity qe ((store.getD i default).embedding))

/-- VectorStore.search returning references (indices) instead of the chunk
    values: the same descending stable sort and the same take k. -/
noncomputable def searchIdxWith (store : List ChunkEmbedding) (qe : List ℝ) (k : Nat) :
    List Nat :=
  (((scoredIdx store qe).mergeSort scoreLe).take k).map Prod.fst

/-- RAGManager.search through a fallible embedding capability: a rejection
    of initialize() or getEmbedding propagates to the caller. -/
noncomputable def searchE (embed : String → Except String (List ℝ))
    (store : List ChunkEmbedding) (query : String) (k : Nat) :
    Except String (List Nat) :=
  match embed query with
  | .error e => .error e
  | .ok qe => .ok (searchIdxWith store qe k)

/-- The word-char class of JS regexes: [A-Za-z0-9_]. -/
def isWordChar (c : Char) : Bool := c.isAlphanum || c = '_'

/-- The char class of the file-name capture group: [a-zA-Z0-9_\-./]. -/
def fnameChar (c : Char) : Bool :=
  c.isAlphanum || c = '_' || c = '-' || c = '.' || c = '/'

/-- The backtracking point of the capture group matched against a maximal
    filename-char run: the greedy first factor retreats to the last '.'
    inside the run that is preceded by at least one char and followed by at
    least one alphanumeric char. -/
def findLastDot (run : List Char) : Option Nat :=
  (List.range run.length).reverse.find? fun d =>
    decide (1 ≤ d) && decide (d + 1 < run.length) &&
    decide (run.getD d ' ' = '.') && (run.getD (d + 1) ' ').isAlphanum

/-- Match the capture group ([a-zA-Z0-9_\-./]+\.[a-zA-Z0-9]+) exactly at the
    start of l: the matched text is the part of the run up to the chosen
    dot, the dot, then the maximal alphanumeric run after it. -/
def matchGroup2 (l : List Char) : Option (List Char) :=
  let run := l.takeWhile fnameChar
  match findLastDot run with
  | none => none
  | some d =>
    some (run.take d ++ ['.'] ++ (run.drop (d + 1)).takeWhile (fun c => c.isAlphanum))

/-- The lazy .+? of the intent regex: consume at least one char (stopping at
    a line terminator, which . does not match), then try the capture group
    at each following position, earliest first. -/
def lazyFind : List Char → Option (List Char)
  | [] => none
  | c :: rest =>
    if c = '\n' || c = '\r' || c = '\u2028' || c = '\u2029' then none
    else
      match matchGroup2 rest with
      | some m => some m
      | none => lazyFind rest

/-- The keyword alternation \b(in|file|path|module)\b at the current
    position, case-insensitively, with the trailing word boundary (the
    leading one is the caller's charge).  Returns the keyword length. -/
def tryKeywordAt (cs : List Char) : Option Nat :=
  ["in", "file", "path", "module"].findSome? fun kw =>
    if (cs.take kw.length).map Char.toLower = kw.data &&
        (match cs.drop kw.length with
         | [] => true
         | c :: _ => !isWordChar c) then
      some kw.length
    else none

/-- Leftmost-match scan of
    query.match(/\b(in|file|path|module)\b.+?([a-zA-Z0-9_\-./]+\.[a-zA-Z0-9]+)/i):
    prevW carries whether the previous char was a word char (the leading
    \b).  The four keywords start with distinct letters, so at most one can
    match at a position and no alternation backtracking arises. -/
def matchIntentCore : List Char → Bool → Option (List Char)
  | [], _ => none
  | c :: rest, prevW =>
    (if !prevW then
      match tryKeywordAt (c :: rest) with
      | some klen =>
        match lazyFind ((c :: rest).drop klen) with
        | some m => some m
        | none => none
      | none => none
    else none).orElse fun _ => matchIntentCore rest (isWordChar c)

/-- fileNameMatch[2]: the file name captured from the query, if any. -/
def matchFileIntent (query : String) : Option String :=
  (matchIntentCore query.data false).map fun cs => ⟨cs⟩

/-- JS fileHeader.split(/\s+/): split on maximal whitespace runs, keeping
    the empty strings that arise at either end (inWs marks that the scan is
    inside a separator run whose piece has already been emitted). -/
def jsSplitWsGo : List Char → List Char → Bool → List String
  | [], acc, _ => [⟨acc.reverse⟩]
  | c :: rest, acc, inWs =>
    if jsIsWs c then
      if inWs then jsSplitWsGo rest acc inWs
      else ⟨acc.reverse⟩ :: jsSplitWsGo rest [] true
    else jsSplitWsGo rest (c :: acc) false

/-- JS s.split(/\s+/). -/
def jsSplitWs (s : String) : List String := jsSplitWsGo s.data [] false

/-- Append a chunk reference to its file's group, creating the group at the
    end on first sight (JS object key insertion order; the file names at
    hand are not array-index-like, where that order would differ). -/
def addToGroup : List (String × List Nat) → String → Nat → List (String × List Nat)
  | [], fn, i => [(fn, [i])]
  | (g, is) :: rest, fn, i =>
    if g = fn then (g, is ++ [i]) :: rest
    else (g, is) :: addToGroup rest fn i

/-- Group the retrieved chunk references by metadata.filename, preserving
    first-seen file order. -/
def groupByFilename (store : List ChunkEmbedding) (idxs : List Nat) :
    List (String × List Nat) :=
  idxs.foldl (fun acc i => addToGroup acc (chunkAt store i).metadata.filename i) []

/-- The specific-file prioritisation: when the query names a file and some
    group name contains it case-insensitively, the matching files move to
    the front, both halves keeping their relative order. -/
def reorderGroups (groups : List (String × List Nat)) :
    Option String → List (String × List Nat)
  | none => groups
  | some specificFile =>
    let matching := (groups.map Prod.fst).filter fun f =>
      strContains (jsToLower f) (jsToLower specificFile)
    if matching.length > 0 then
      let ordered := matching ++
        ((groups.map Prod.fst).filter fun f => !matching.contains f)
      ordered.map fun f => (f, ((groups.find? fun p => p.1 = f).getD (f, [])).2)
    else groups

/-- fileChunks[filename].sort((a, b) => a.metadata.startLine - b.metadata.startLine):
    a stable ascending sort of the references by the startLine they point at. -/
def sortByStartLine (store : List ChunkEmbedding) (idxs : List Nat) : List Nat :=
  idxs.mergeSort fun i j =>
    decide ((chunkAt store i).metadata.startLine ≤ (chunkAt store j).metadata.startLine)

/-- Overwrite the endLine of the chunk stored at index h (the write that
    prev.metadata.endLine = ... performs through the shared metadata
    reference). -/
def setEndLine (store : List ChunkEmbedding) (h : Nat) (e : Nat) : List ChunkEmbedding :=
  match store.get? h with
  | none => store
  | some r =>
    store.set h ⟨⟨r.chunk.content, { r.chunk.metadata with endLine := e }⟩, r.embedding⟩

/-- One step of the merge loop.  mergedChunks holds shallow copies
    {...current}: the content slot is the copy's own, but metadata is the
    same object as the store record's, recorded here as the index paired
    with the accumulated content.  Merging a close chunk extends the run
    head's endLine — through the shared metadata, into the store — and
    concatenates the content on the copy only. -/
def mergeStep (acc : List ChunkEmbedding × List (Nat × String)) (j : Nat) :
    List ChunkEmbedding × List (Nat × String) :=
  match acc.2.getLast? with
  | some (h, hContent) =>
    if (chunkAt acc.1 j).metadata.startLine ≤ (chunkAt acc.1 h).metadata.endLine + 3 then
      (setEndLine acc.1 h
         (max ((chunkAt acc.1 h).metadata.endLine) ((chunkAt acc.1 j).metadata.endLine)),
       acc.2.dropLast ++ [(h, hContent ++ "\n" ++ (chunkAt acc.1 j).content)])
    else
      (acc.1, acc.2 ++ [(j, (chunkAt acc.1 j).content)])
  | none => (acc.1, [(j, (chunkAt acc.1 j).content)])

/-- The merge loop over one file group (already sorted by startLine). -/
def mergeAdjacent (store : List ChunkEmbedding) (idxs : List Nat) :
    List ChunkEmbedding × List (Nat × String) :=
  idxs.foldl mergeStep (store, [])

/-- The per-chunk assembly loop of one file block: prepend a
    "// Lines a-b[ (type)]:" header to each merged chunk and accumulate,
    until the next chunk would push the block over targetTokensPerFile; then
    append the omission note and mark the file partial.  The token estimate
    is (header + content length) * 4 / 100, exact here in Rat where the
    source uses binary doubles.  Returns (fileContext, fileTokens,
    includeCompleteFile). -/
def addChunkText (store : List ChunkEmbedding) (target : ℚ) :
    List (Nat × String) → String → ℚ → String × ℚ × Bool
  | [], fileContext, fileTokens => (fileContext, fileTokens, true)
  | (h, content) :: rest, fileContext, fileTokens =>
    let md := (chunkAt store h).metadata
    let chunkHeader := "\n// Lines " ++ toString md.startLine ++ "-" ++ toString md.endLine
    let chunkHeaderComment :=
      if md.type = ChunkType.function ∨ md.type = ChunkType.cls then
        " (" ++ md.type.toStr ++ ")"
      else ""
    let fullChunkHeader := chunkHeader ++ chunkHeaderComment ++ ":\n"
    let chunkContent := content ++ "\n"
    let totalChunkTokens : ℚ :=
      ((fullChunkHeader.length + chunkContent.length : Nat) : ℚ) * 4 / 100
    if fileTokens + totalChunkTokens > target then
      (fileContext ++
        "\n// Additional code from this file was found but omitted due to token limits\n",
       fileTokens, false)
    else
      addChunkText store target rest (fileContext ++ fullChunkHeader ++ chunkContent)
        (fileTokens + totalChunkTokens)

/-- The packing state threaded over the file groups (partFiles is the
    source's partialFiles). -/
structure AsmState where
  store : List ChunkEmbedding
  context : String
  currentTokens : ℚ
  includedFiles : List String
  partFiles : List String

/-- The outer loop of getRelevantContext over the (possibly reordered) file
    groups.  The group-header budget check breaks before touching a group;
    the merge loop (and so its writes into the store) runs before the
    whole-block budget check, which can then break after the writes. -/
def processGroups (maxTok : ℚ) (target : ℚ) :
    List (String × List Nat) → AsmState → AsmState
  | [], st => st
  | (fname, gidxs) :: rest, st =>
    let fileHeader := "\n--- File: " ++ fname ++ " ---\n"
    let headerTokens : ℚ := ((jsSplitWs fileHeader).length : ℚ)
    if st.currentTokens + headerTokens > maxTok then st
    else
      let ms := mergeAdjacent st.store (sortByStartLine st.store gidxs)
      let r := addChunkText ms.1 target ms.2 fileHeader headerTokens
      if st.currentTokens + r.2.1 ≤ maxTok then
        processGroups maxTok target rest
          { store := ms.1,
            context := st.context ++ r.1,
            currentTokens := st.currentTokens + r.2.1,
            includedFiles :=
              if r.2.2 then st.includedFiles ++ [fname] else st.includedFiles,
            partFiles :=
              if r.2.2 then st.partFiles else st.partFiles ++ [fname] }
      else { st with store := ms.1 }

/-- Steps 3-9 of getRelevantContext, entered when search returned chunks:
    group by file, prioritise a file the query names, compute the per-file
    budget, merge and pack each group, and prepend the summary and the
    omitted-files note.  Returns the context string together with the store
    as the merge loop's writes left it. -/
def assembleContext (store : List ChunkEmbedding) (query : String) (maxTok : Nat)
    (idxs : List Nat) : String × List ChunkEmbedding :=
  let fileChunks := reorderGroups (groupByFilename store idxs) (matchFileIntent query)
  let target : ℚ := ((maxTok / min fileChunks.length 5 : Nat) : ℚ)
  let st := processGroups (maxTok : ℚ) target fileChunks ⟨store, "", 0, [], []⟩
  let count := st.includedFiles.length + st.partFiles.length
  let summary := "Code context from " ++ toString count ++ " files:\n" ++
    (if st.includedFiles.length > 0 then
      "- Complete context: " ++ String.intercalate ", " st.includedFiles ++ "\n"
     else "") ++
    (if st.partFiles.length > 0 then
      "- Partial context: " ++ String.intercalate ", " st.partFiles ++ "\n"
     else "")
  let remainingFiles := fileChunks.length - count
  let remainingNote :=
    if remainingFiles > 0 then
      "\nNote: " ++ toString remainingFiles ++
        " more relevant files were found but omitted due to token limits.\n"
    else ""
  (summary ++ remainingNote ++ st.context, st.store)

/-- RAGManager.getRelevantContext with the store threaded, to expose the
    writes the merge loop makes through the chunk references search handed
    out.  The top-level try/catch makes the function total: an embedding
    rejection becomes the error string; an empty search result becomes the
    fixed sentinel. -/
noncomputable def getRelevantContextM (embed : String → Except String (List ℝ))
    (store : List ChunkEmbedding) (query : String) (maxTok : Nat) :
    String × List ChunkEmbedding :=
  match searchE embed store query 10 with
  | .error e => ("Error retrieving code context: " ++ e, store)
  | .ok idxs =>
    if idxs.length = 0 then ("No relevant code context found for this query.", store)
    else assembleContext store query maxTok idxs

/-- The string RAGManager.getRelevantContext returns to its caller. -/
noncomputable def getRelevantContext (embed : String → Except String (List ℝ))
    (store : List ChunkEmbedding) (query : String) (maxTok : Nat) : String :=
  (getRelevantContextM embed store query maxTok).1

/-- C2.  getRelevantContext is a total function into strings: whatever the
    store, the query (empty included) and the budget, it returns a string;
    when the embedding capability rejects, that string describes the error
    instead of propagating the failure; when search finds nothing, it is the
    fixed no-context sentinel. -/
theorem getRelevantContext_total (embed : String → Except String (List ℝ))
    (store : List ChunkEmbedding) (query : String) (maxTok : Nat) :
    (∃ s : String, getRelevantContext embed store query maxTok = s) ∧
    (∀ e, embed query = .error e →
      getRelevantContext embed store query maxTok =
        "Error retrieving code context: " ++ e) ∧
    (∀ qe, embed query = .ok qe → searchIdxWith store qe 10 = [] →
      getRelevantContext embed store query maxTok =
        "No relevant code context found for this query.") := by
  refine ⟨⟨_, rfl⟩, ?_, ?_⟩
  · intro e he
    simp [getRelevantContext, getRelevantContextM, searchE, he]
  · intro qe he hnil
    simp [getRelevantContext, getRelevantContextM, searchE, he, hnil]

/-- Witness for getRelevantContext_total: a rejecting embedder yields the
    error-describing string. -/
theorem getRelevantContext_total_witness :
    getRelevantContext embedFail storeAB "query" 1536 =
      "Error retrieving code context: model load failure" :=
  (getRelevantContext_total embedFail storeAB "query" 1536).2.1 "model load failure" rfl

/-- A list permuted with a pair is one of its two arrangements. -/
theorem perm_pair_cases {α : Type} {l : List α} {a b : α} (h : l.Perm [a, b]) :
    l = [a, b] ∨ l = [b, a] := by
  have hlen : l.length = 2 := by simpa using h.length_eq
  obtain ⟨x, y, rfl⟩ : ∃ x y, l = [x, y] := by
    match l, hlen with
    | [x, y], _ => exact ⟨x, y, rfl⟩
  have hx : x = a ∨ x = b := by
    have := h.subset (List.mem_cons_self x [y])
    simpa using this
  rcases hx with hxa | hxb
  · left
    have h2 : [y].Perm [b] := by
      rw [hxa] at h
      exact h.cons_inv
    rw [hxa, List.perm_singleton.mp h2]
  · right
    have h2 : [y].Perm [a] := by
      rw [hxb] at h
      exact (h.trans (List.Perm.swap b a [])).cons_inv
    rw [hxb, List.perm_singleton.mp h2]

/-- On a two-record store, a search that asks for ten results returns the two
    references in one of the two orders. -/
theorem searchIdxWith_two (store : List ChunkEmbedding) (qe : List ℝ)
    (hlen : store.length = 2) :
    searchIdxWith store qe 10 = [0, 1] ∨ searchIdxWith store qe 10 = [1, 0] := by
  have hperm : ((scoredIdx store qe).mergeSort scoreLe).Perm (scoredIdx store qe) :=
    List.mergeSort_perm _ _
  have hslen : (scoredIdx store qe).length = 2 := by simp [scoredIdx, hlen]
  have htake : ((scoredIdx store qe).mergeSort scoreLe).take 10 =
      (scoredIdx store qe).mergeSort scoreLe :=
    List.take_of_length_le (by rw [hperm.length_eq, hslen]; omega)
  have hfsts : (scoredIdx store qe).map Prod.fst = [0, 1] := by
    simp only [scoredIdx, List.map_map]
    rw [hlen]
    rfl
  have hres : (searchIdxWith store qe 10).Perm [0, 1] := by
    rw [searchIdxWith, htake, ← hfsts]
    exact hperm.map Prod.fst
  exact perm_pair_cases hres

/-- The group-sorting comparator is transitive and total, so sorting the two
    references of storeAB by startLine yields [0, 1] from either input
    order (the startLines 0 and 3 are distinct). -/
theorem sortByStartLine_AB (l : List Nat) (hl : l = [0, 1] ∨ l = [1, 0]) :
    sortByStartLine storeAB l = [0, 1] := by
  have htrans : ∀ a b c : Nat,
      (decide ((chunkAt storeAB a).metadata.startLine ≤
        (chunkAt storeAB b).metadata.startLine)) = true →
      (decide ((chunkAt storeAB b).metadata.startLine ≤
        (chunkAt storeAB c).metadata.startLine)) = true →
      (decide ((chunkAt storeAB a).metadata.startLine ≤
        (chunkAt storeAB c).metadata.startLine)) = true := by
    intro a b c h1 h2
    simp only [decide_eq_true_eq] at h1 h2 ⊢
    omega
  have htotal : ∀ a b : Nat,
      ((decide ((chunkAt storeAB a).metadata.startLine ≤
         (chunkAt storeAB b).metadata.startLine)) ||
       (decide ((chunkAt storeAB b).metadata.startLine ≤
         (chunkAt storeAB a).metadata.startLine))) = true := by
    intro a b
    simp only [Bool.or_eq_true, decide_eq_true_eq]
    omega
  have hsorted := @List.sorted_mergeSort Nat
    (fun i j => decide ((chunkAt storeAB i).metadata.startLine ≤
      (chunkAt storeAB j).metadata.startLine)) htrans htotal l
  have hperm : (sortByStartLine storeAB l).Perm [0, 1] := by
    rcases hl with rfl | rfl
    · exact List.mergeSort_perm _ _
    · exact (List.mergeSort_perm _ _).trans (List.Perm.swap 0 1 [])
  rcases perm_pair_cases hperm with h | h
  · exact h
  · exfalso
    rw [sortByStartLine] at h
    rw [h] at hsorted
    have := List.pairwise_cons.mp hsorted
    have h10 := this.1 0 (List.mem_singleton.mpr rfl)
    revert h10
    decide

/-- An embedding capability that always succeeds (with the empty vector; no
    theorem below inspects the scores it induces). -/
def embedNil : String → Except String (List ℝ) := fun _ => .ok []

/-- C5 evaluated at the failing input.  storeAB holds two chunks of the same
    file, lines 0-2 and 3-9.  One call of getRelevantContext merges them
    (3 ≤ 2 + 3) and thereby overwrites the first stored record's
    metadata.endLine with max(2, 9) = 9: the merge loop's {...current} is a
    shallow copy whose metadata is the stored chunk's own object, so the
    write lands in the store, and the next save() would persist it.  Before
    the call the stored endLines are [2, 9]; after it they are [9, 9]. -/
theorem getRelevantContext_mutates_store :
    (getRelevantContextM embedNil storeAB "query" 1536).2.map
        (fun r => r.chunk.metadata.endLine) = [9, 9] ∧
    storeAB.map (fun r => r.chunk.metadata.endLine) = [2, 9] := by
  refine ⟨?_, by decide⟩
  have hM : getRelevantContextM embedNil storeAB "query" 1536 =
      (if (searchIdxWith storeAB [] 10).length = 0 then
        ("No relevant code context found for this query.", storeAB)
      else assembleContext storeAB "query" 1536 (searchIdxWith storeAB [] 10)) := rfl
  have hmerge : (mergeAdjacent storeAB [0, 1]).1.map
      (fun r => r.chunk.metadata.endLine) = [9, 9] := by decide
  have h6 : (jsSplitWs ("\n--- File: " ++ "a.ts" ++ " ---\n")).length = 6 := by decide
  have hstore : ∀ (t : ℚ) (g : List Nat), sortByStartLine storeAB g = [0, 1] →
      (processGroups ((1536 : Nat) : ℚ) t [("a.ts", g)] ⟨storeAB, "", 0, [], []⟩).store =
        (mergeAdjacent storeAB [0, 1]).1 := by
    intro t g hg
    simp only [processGroups]
    split
    · rename_i hcond
      exfalso
      rw [h6] at hcond
      norm_num at hcond
    · rw [hg]
      split
      · simp only [processGroups]
      · rfl
  rcases searchIdxWith_two storeAB [] (by decide) with hidx | hidx
  · rw [hM, hidx, if_neg (by decide)]
    have hfc : reorderGroups (groupByFilename storeAB [0, 1]) (matchFileIntent "query") =
        [("a.ts", [0, 1])] := by decide
    simp only [assembleContext, hfc]
    rw [hstore _ _ (sortByStartLine_AB _ (Or.inl rfl)), hmerge]
  · rw [hM, hidx, if_neg (by decide)]
    have hfc : reorderGroups (groupByFilename storeAB [1, 0]) (matchFileIntent "query") =
        [("a.ts", [1, 0])] := by decide
    simp only [assembleContext, hfc]
    rw [hstore _ _ (sortByStartLine_AB _ (Or.inr rfl)), hmerge]
